import Mathlib

/-!
Verification development for the go-backup repository.

The Go sources are shallowly embedded: pure functions become Lean
functions; filesystem state (a directory listing, a source tree) is passed
explicitly; machine integers (`int`, `int64`) are modelled as `Int`
(no arithmetic here approaches the 64-bit overflow boundary); a Go
run-time panic is modelled as `Option.none`.

Strings are modelled at the character-list level (`Str := List Char`):
Go's `strings.HasPrefix/HasSuffix/Contains/TrimSuffix` and byte indexing
become the corresponding `List Char` operations.  The only place byte
indexing vs. character indexing could differ is non-ASCII paths, which
none of the verified properties depend on.
-/

/-- Character-level model of a Go string. -/
abbrev Str := List Char

/-- The path separator, `filepath.Separator` on Unix. -/
def pathSep : Char := '/'

/-- Model of `strings.Contains s sub`: `sub` occurs contiguously in `s`. -/
def isSubstrOf (sub : Str) : Str → Bool
  | [] => sub.isEmpty
  | c :: rest => sub.isPrefixOf (c :: rest) || isSubstrOf sub rest

/-- Model of `strings.TrimSuffix s suf` (drops `suf` when it is a suffix,
otherwise returns `s` unchanged). -/
def trimSuffix (s suf : Str) : Str :=
  if suf.isSuffixOf s then s.take (s.length - suf.length) else s

/-! ## RetentionEngine: `internal/service/backup/rotation.go`

`CleanupOldBackups(backupDir, prefix, maxBackups)` is embedded over an
explicit directory listing.  `os.ReadDir` becomes the `dir` parameter
(one `DirEntry` per entry); `os.Remove` always succeeds in the model
(the Go code tolerates and merely logs removal failures); `os.Stat`
existence checks become lookups in the current listing.  The Go slice
expression `backupFiles[:len(backupFiles)-maxBackups]` panics when the
high bound exceeds the slice's length; the model returns `none` there.
`sort.Slice` with the `ModTime().Before` comparator is determinized as a
stable insertion sort by ascending modification time (ties, which the Go
sort resolves arbitrarily, are resolved stably here). -/

/-- One entry of a directory listing, as returned by `os.ReadDir`. -/
structure DirEntry where
  name : Str
  isDir : Bool
  modTime : Int
deriving DecidableEq, Repr

/-- Suffix `".tar.gz"`. -/
def tarGzSuffix : Str := ".tar.gz".toList

/-- Suffix `".tar.gz.gpg"`. -/
def tarGzGpgSuffix : Str := ".tar.gz.gpg".toList

/-- The filter of `CleanupOldBackups`: a non-directory entry whose name
starts with the prefix and ends in `.tar.gz` or `.tar.gz.gpg`. -/
def isBackupEntry (pfx : Str) (e : DirEntry) : Bool :=
  !e.isDir && pfx.isPrefixOf e.name &&
    (tarGzSuffix.isSuffixOf e.name || tarGzGpgSuffix.isSuffixOf e.name)

/-- Name-level version of the rotation filter. -/
def isBackupName (pfx : Str) (n : Str) : Bool :=
  pfx.isPrefixOf n && (tarGzSuffix.isSuffixOf n || tarGzGpgSuffix.isSuffixOf n)

/-- The `configBaseName` computation of `CleanupOldBackups`: strip
`.tar.gz.gpg`, else `.tar.gz`, else `.gpg` then `.gz` then `.tar`. -/
def configBaseName (n : Str) : Str :=
  if tarGzGpgSuffix.isSuffixOf n then trimSuffix n tarGzGpgSuffix
  else if tarGzSuffix.isSuffixOf n then trimSuffix n tarGzSuffix
  else trimSuffix (trimSuffix (trimSuffix n ".gpg".toList) ".gz".toList) ".tar".toList

/-- The sidecar names probed for a deleted archive `n`, in probe order:
the standard `<base>.backup.yaml` first, then the two
backward-compatibility variants (the Go loop re-lists the standard name
but explicitly `continue`s over it). -/
def sidecarNames (n : Str) : List Str :=
  let base := configBaseName n
  [base ++ ".backup.yaml".toList,
   base ++ ".tar.gz.backup.yaml".toList,
   base ++ ".gpg.backup.yaml".toList]

/-- `os.Remove(filepath.Join(dir, n))` on the listing model. -/
def removeName (st : List DirEntry) (n : Str) : List DirEntry :=
  st.filter (fun e => !(e.name == n))

/-- `os.Stat` existence probe on the listing model. -/
def statExists (st : List DirEntry) (n : Str) : Bool :=
  st.any (fun e => e.name == n)

/-- Delete each sidecar name that currently exists, returning the new
listing and the names actually deleted (in order). -/
def deleteSidecars (st : List DirEntry) : List Str → List DirEntry × List Str
  | [] => (st, [])
  | n :: rest =>
    if statExists st n then
      let res := deleteSidecars (removeName st n) rest
      (res.1, n :: res.2)
    else deleteSidecars st rest

/-- The body of the deletion loop for one stale archive `n`: remove the
archive, then probe and remove its sidecar config files. -/
def deleteArchiveAndSidecars (st : List DirEntry) (n : Str) :
    List DirEntry × List Str :=
  deleteSidecars (removeName st n) (sidecarNames n)

/-- The deletion loop of `CleanupOldBackups` over `filesToDelete`:
returns the final listing, the archive names deleted, and the sidecar
names deleted. -/
def processDeletes (st : List DirEntry) :
    List DirEntry → List DirEntry × List Str × List Str
  | [] => (st, [], [])
  | e :: rest =>
    let d := deleteArchiveAndSidecars st e.name
    let r := processDeletes d.1 rest
    (r.1, e.name :: r.2.1, d.2 ++ r.2.2)

/-- Ascending sort by modification time (`sort.Slice` with
`ModTime().Before`, determinized stably). -/
def sortByModTime (l : List DirEntry) : List DirEntry :=
  List.insertionSort (fun a b => a.modTime ≤ b.modTime) l

/-- Outcome of one `CleanupOldBackups` run. -/
structure RotationResult where
  remaining : List DirEntry
  deletedArchives : List Str
  deletedConfigs : List Str
deriving DecidableEq, Repr

/-- Embedding of `CleanupOldBackups` (rotation.go).  `none` models the Go
run-time panic of the slice expression
`backupFiles[:len(backupFiles)-maxBackups]` when its high bound exceeds
the slice length (i.e. when `maxBackups < 0`). -/
def CleanupOldBackups (dir : List DirEntry) (pfx : Str) (maxBackups : Int) :
    Option RotationResult :=
  let backupFiles := dir.filter (isBackupEntry pfx)
  if (backupFiles.length : Int) ≤ maxBackups then
    some ⟨dir, [], []⟩
  else
    let hi : Int := (backupFiles.length : Int) - maxBackups
    if (backupFiles.length : Int) < hi then none
    else
      let filesToDelete := (sortByModTime backupFiles).take hi.toNat
      let r := processDeletes dir filesToDelete
      some ⟨r.1, r.2.1, r.2.2⟩

/-! ## ConfigStore: `internal/service/config` (current snapshot)

The repository holds several historical snapshots of `config.go`; the
embedding follows the most complete ones: the snapshot with file-target
support and `AddBackupRecord` (src/unnamed/part_013, identical in this
respect to part_012), and the snapshot whose `ReadBackupConfig`
validates targets (src/unnamed/part_012), as required by the project's
requirement REQ-25 ("the system shall validate configuration files
before use").  `time.Time` is modelled as `Int`; fields not touched by
the verified operations (`LastRun`, `Encryption`, YAML mechanics) are
omitted.  File reading and YAML unmarshalling are abstracted: the
embedding of `ReadBackupConfig` starts from the parsed document. -/

/-- `BackupRecord`: one completed archive copy. -/
structure BackupRecord where
  filename : Str
  source : Str
  createdAt : Int
  size : Int
deriving DecidableEq, Repr

/-- `BackupTarget`: a directory target (`path`) or single-file target
(`file`), with rotation limit and history. -/
structure BackupTarget where
  path : Str
  file : Str
  maxBackups : Int
  backups : List BackupRecord
deriving DecidableEq, Repr

/-- `IsFileTarget`: the target is a single-file backup (no rotation). -/
def BackupTarget.isFileTarget (t : BackupTarget) : Bool :=
  !t.file.isEmpty

/-- `GetDestination`: the effective destination path of a target. -/
def BackupTarget.getDestination (t : BackupTarget) : Str :=
  if t.isFileTarget then t.file else t.path

/-- `BackupConfig`: the root configuration document. -/
structure BackupConfig where
  excludes : List Str
  targets : List BackupTarget
deriving DecidableEq, Repr

/-- The target-lookup loop of `AddBackupRecord`: first index whose
destination equals `targetPath`, `none` for Go's `-1`. -/
def findTargetIdx : List BackupTarget → Str → Option Nat
  | [], _ => none
  | t :: rest, p =>
    if t.getDestination == p then some 0
    else (findTargetIdx rest p).map (· + 1)

/-- The per-target body of `AddBackupRecord`: a file target keeps only
the new record; a directory target prepends, normalizes a non-positive
`maxBackups` to the default 7, and trims to the limit. -/
def addRecordToTarget (t : BackupTarget) (record : BackupRecord) : BackupTarget :=
  if t.isFileTarget then
    { t with backups := [record] }
  else
    let backups1 := record :: t.backups
    let maxB := if t.maxBackups ≤ 0 then 7 else t.maxBackups
    let backups2 :=
      if (backups1.length : Int) > maxB then backups1.take maxB.toNat else backups1
    { t with maxBackups := maxB, backups := backups2 }

/-- Embedding of `AddBackupRecord` (config.go): no-op when no target has
the given destination, otherwise update the first matching target. -/
def AddBackupRecord (config : BackupConfig) (targetPath : Str)
    (record : BackupRecord) : BackupConfig :=
  match findTargetIdx config.targets targetPath with
  | none => config
  | some i =>
    match config.targets[i]? with
    | none => config
    | some t =>
      { config with targets := config.targets.set i (addRecordToTarget t record) }

/-- The two rejection reasons of `BackupTarget.Validate`. -/
inductive TargetError where
  | bothPathAndFile
  | neitherPathNorFile
deriving DecidableEq, Repr

/-- Embedding of `BackupTarget.Validate`: exactly one of `path`/`file`
must be set. -/
def BackupTarget.validate (t : BackupTarget) : Option TargetError :=
  if !t.path.isEmpty && !t.file.isEmpty then some .bothPathAndFile
  else if t.path.isEmpty && t.file.isEmpty then some .neitherPathNorFile
  else none

/-- The `maxBackups` normalization of `ReadBackupConfig`: non-positive
values become the default 7. -/
def normalizeTarget (t : BackupTarget) : BackupTarget :=
  if t.maxBackups ≤ 0 then { t with maxBackups := 7 } else t

/-- The validation/normalization loop of `ReadBackupConfig`: the first
invalid target aborts with its index, otherwise every target is
normalized. -/
def validateAndNormalize : List BackupTarget → Except (Nat × TargetError) (List BackupTarget)
  | [] => .ok []
  | t :: rest =>
    match t.validate with
    | some e => .error (0, e)
    | none =>
      match validateAndNormalize rest with
      | .error ie => .error (ie.1 + 1, ie.2)
      | .ok rest2 => .ok (normalizeTarget t :: rest2)

/-- Embedding of `ReadBackupConfig` from the parsed document onward (the
file read and YAML unmarshal, whose failures are orthogonal to the
verified properties, are abstracted away). -/
def ReadBackupConfig (doc : BackupConfig) : Except (Nat × TargetError) BackupConfig :=
  match validateAndNormalize doc.targets with
  | .error e => .error e
  | .ok ts => .ok { doc with targets := ts }

/-! ## SizeAnalyzer and ArchiveBuilder: `internal/service/compress`

`filepath.Match` is platform library code; the embedding takes the glob
matcher as an explicit function parameter `matchFn` (called as
`matchFn pattern relPath`) and the verified properties hold for every
matcher.  `filepath.Walk` over a source tree is embedded in two ways,
each exact for its consumer:
* `filesize.go` never prunes directories (it only skips them), so its
  walk is a fold over the flat list of visited entries in walk order;
* `targz.go` prunes excluded directories with `filepath.SkipDir`, so its
  walk recurses over an explicit file tree. -/

/-- Constants of `internal/service/compress` (src/unnamed/part_016). -/
def MB : Int := 1024 * 1024

/-- `GB = 1024 * MB`. -/
def GB : Int := 1024 * MB

/-- Standard tar format single-file limit, 8 GB. -/
def StandardTarSizeLimit : Int := 8 * GB

/-- Threshold above which PAX headers are used: the tar limit minus a
100 MB safety margin. -/
def RecommendedMaxFileSize : Int := StandardTarSizeLimit - 100 * MB

/-- Embedding of `checkExcluded` (filesize.go): for each pattern, try the
glob match, then the directory-prefix match (pattern equal to the path,
or followed by the path separator). -/
def checkExcluded (matchFn : Str → Str → Bool) (relPath : Str) :
    List Str → Bool
  | [] => false
  | exclude :: rest =>
    let matched := matchFn exclude relPath
    if !matched && exclude.isPrefixOf relPath &&
        (relPath.length == exclude.length ||
          (decide (exclude.length < relPath.length) &&
            relPath[exclude.length]? == some pathSep)) then
      true
    else if matched then
      true
    else
      checkExcluded matchFn relPath rest

/-- One entry visited by the `filepath.Walk` of filesize.go, carrying its
path relative to the walk root. -/
structure FsEntry where
  relPath : Str
  isDir : Bool
  size : Int
  modTime : Int
deriving DecidableEq, Repr

/-- `FileSizeSummary` of filesize.go. -/
structure FileSizeSummary where
  totalSize : Int
  largestFile : Str
  largestFileSize : Int
  filesOverSize : List Str
deriving DecidableEq, Repr

/-- The walk callback of `CheckFileSizes`, folded over one entry. -/
def checkFileSizesStep (matchFn : Str → Str → Bool) (excludes : List Str)
    (maxSize : Int) (s : FileSizeSummary) (e : FsEntry) : FileSizeSummary :=
  if e.isDir then s
  else if checkExcluded matchFn e.relPath excludes then s
  else
    let s1 := { s with totalSize := s.totalSize + e.size }
    let s2 :=
      if e.size > s1.largestFileSize then
        { s1 with largestFileSize := e.size, largestFile := e.relPath }
      else s1
    if maxSize > 0 && e.size > maxSize then
      { s2 with filesOverSize := s2.filesOverSize ++ [e.relPath] }
    else s2

/-- Embedding of `CheckFileSizes` (filesize.go): `maxSizeGB` is in GB,
converted to bytes with the `GB` constant. -/
def CheckFileSizes (matchFn : Str → Str → Bool) (entries : List FsEntry)
    (excludes : List Str) (maxSizeGB : Int) : FileSizeSummary :=
  let maxSize := maxSizeGB * GB
  entries.foldl (checkFileSizesStep matchFn excludes maxSize) ⟨0, [], 0, []⟩

/-- `LargeFileInfo` of filesize.go (the absolute `Path` and the
human-readable size string, pure presentation derived from these fields,
are omitted). -/
structure LargeFileInfo where
  relPath : Str
  size : Int
  modTime : Int
deriving DecidableEq, Repr

/-- The collection phase of `ListLargeFiles`, folded over one entry. -/
def listLargeFilesStep (matchFn : Str → Str → Bool) (excludes : List Str)
    (thresholdBytes : Int) (acc : List LargeFileInfo) (e : FsEntry) :
    List LargeFileInfo :=
  if e.isDir then acc
  else if checkExcluded matchFn e.relPath excludes then acc
  else if e.size > thresholdBytes then acc ++ [⟨e.relPath, e.size, e.modTime⟩]
  else acc

/-- Embedding of `ListLargeFiles` (filesize.go): `thresholdMB` is in MB;
the result is sorted by size, largest first (`sort.Slice` with `Size >
Size`, determinized stably). -/
def ListLargeFiles (matchFn : Str → Str → Bool) (entries : List FsEntry)
    (excludes : List Str) (thresholdMB : Int) : List LargeFileInfo :=
  let thresholdBytes := thresholdMB * MB
  let largeFiles :=
    entries.foldl (listLargeFilesStep matchFn excludes thresholdBytes) []
  List.insertionSort (fun a b => b.size ≤ a.size) largeFiles

mutual
/-- A node of the source tree walked by targz.go. -/
inductive FNode where
  | file (name : Str) (size : Int)
  | dir (name : Str) (children : FForest)

/-- A list of sibling nodes, in walk (lexical) order. -/
inductive FForest where
  | nil
  | cons (hd : FNode) (tl : FForest)
end

/-- The name of a node. -/
def FNode.nodeName : FNode → Str
  | .file n _ => n
  | .dir n _ => n

/-- Tar header formats relevant to targz.go: `tar.FormatUnknown` (the
`Header.Format` zero value left by `tar.FileInfoHeader`, letting the
writer choose the legacy format) and `tar.FormatPAX`. -/
inductive TarFormat where
  | unknownFormat
  | pax
deriving DecidableEq, Repr

/-- One member written to the archive: the header fields targz.go sets
(`Name`, size, mode-derived kind, `Format`) plus whether contents follow. -/
structure TarEntry where
  name : Str
  size : Int
  isDir : Bool
  format : TarFormat
deriving DecidableEq, Repr

/-- The header construction of targz.go for one visited entry:
`tar.FileInfoHeader`, the `Name` override with the relative path, and the
PAX format selection for sizes above `RecommendedMaxFileSize`.
Directories carry size 0 (`tar.FileInfoHeader` zeroes `Size` for
non-regular files, and a directory's `FileInfo.Size` never reaches the
8 GB threshold). -/
def headerOf (relPath : Str) (isDir : Bool) (size : Int) : TarEntry :=
  let fmt := if size > RecommendedMaxFileSize then TarFormat.pax
             else TarFormat.unknownFormat
  ⟨relPath, size, isDir, fmt⟩

/-- The exclusion loop of `CreateTarGzArchive` (targz.go): any pattern
that glob-matches, is contained in, or is a prefix of the relative path
causes a skip (`filepath.SkipDir` for directories). -/
def exclHit (matchFn : Str → Str → Bool) (excludes : List Str)
    (relPath : Str) : Bool :=
  excludes.any (fun exclude =>
    matchFn exclude relPath || isSubstrOf exclude relPath ||
      exclude.isPrefixOf relPath)

/-- The relative path of a child below `rel` (empty `rel` marks the walk
root, whose own entry `filepath.Walk` reports as `"."` and targz.go
skips). -/
def childRel (rel : Str) (n : Str) : Str :=
  if rel.isEmpty then n else rel ++ [pathSep] ++ n

/-- `filepath.Join parent name` for the absolute path of a child. -/
def childAbs (abs : Str) (n : Str) : Str :=
  abs ++ [pathSep] ++ n

mutual
/-- The walk body of `CreateTarGzArchive` for one node with relative
path `rel` and absolute path `abs`: excluded nodes are skipped (pruning
the subtree for directories); nodes under the temporary directory are
skipped individually (`return nil`, which for a directory still
descends); every other node gets a header, and only that — the streaming
of regular-file contents after the header carries no further header
information. -/
def walkNode (matchFn : Str → Str → Bool) (excludes : List Str)
    (tmp : Str) (rel abs : Str) : FNode → List TarEntry
  | .file _ sz =>
    if exclHit matchFn excludes rel then []
    else if tmp.isPrefixOf abs then []
    else [headerOf rel false sz]
  | .dir _ cs =>
    if exclHit matchFn excludes rel then []
    else if tmp.isPrefixOf abs then walkForest matchFn excludes tmp rel abs cs
    else headerOf rel true 0 :: walkForest matchFn excludes tmp rel abs cs

/-- The walk over a list of siblings below the directory `rel`/`abs`. -/
def walkForest (matchFn : Str → Str → Bool) (excludes : List Str)
    (tmp : Str) (rel abs : Str) : FForest → List TarEntry
  | .nil => []
  | .cons c rest =>
    walkNode matchFn excludes tmp (childRel rel c.nodeName)
        (childAbs abs c.nodeName) c ++
      walkForest matchFn excludes tmp rel abs rest
end

/-- Embedding of `CreateTarGzArchive` (targz.go) as the sequence of tar
members it writes for a source tree: the walk starts at the root (whose
own `"."` entry is skipped by the source) and descends into the root's
children.  `tmp` is `os.TempDir()`. -/
def CreateTarGzArchive (matchFn : Str → Str → Bool) (tmp sourceDir : Str)
    (rootChildren : FForest) (excludes : List Str) : List TarEntry :=
  walkForest matchFn excludes tmp [] sourceDir rootChildren

/-! ## Helper lemmas -/

theorem isBackupName_of_entry {pfx : Str} {e : DirEntry}
    (h : isBackupEntry pfx e = true) : isBackupName pfx e.name = true := by
  simp only [isBackupEntry, Bool.and_eq_true, Bool.not_eq_true'] at h
  simp only [isBackupName, Bool.and_eq_true]
  exact ⟨h.1.2, h.2⟩

theorem processDeletes_archives (fs : List DirEntry) :
    ∀ st : List DirEntry, (processDeletes st fs).2.1 = fs.map DirEntry.name := by
  induction fs with
  | nil => intro st; rfl
  | cons f rest ih =>
    intro st
    simp only [processDeletes, List.map_cons]
    rw [ih]

theorem deleteSidecars_subset (ns : List Str) :
    ∀ st : List DirEntry, ∀ n ∈ (deleteSidecars st ns).2, n ∈ ns := by
  induction ns with
  | nil => intro st n hn; simp [deleteSidecars] at hn
  | cons m rest ih =>
    intro st n hn
    simp only [deleteSidecars] at hn
    by_cases hex : statExists st m = true
    · rw [if_pos hex] at hn
      rcases List.mem_cons.mp hn with h | h
      · exact h ▸ List.mem_cons_self _ _
      · exact List.mem_cons_of_mem _ (ih _ _ h)
    · rw [if_neg hex] at hn
      exact List.mem_cons_of_mem _ (ih _ _ hn)

theorem processDeletes_configs (fs : List DirEntry) :
    ∀ st : List DirEntry, ∀ n ∈ (processDeletes st fs).2.2,
      ∃ e ∈ fs, n ∈ sidecarNames e.name := by
  induction fs with
  | nil => intro st n hn; simp [processDeletes] at hn
  | cons f rest ih =>
    intro st n hn
    simp only [processDeletes, List.mem_append] at hn
    rcases hn with h | h
    · exact ⟨f, List.mem_cons_self _ _,
        deleteSidecars_subset _ _ _ h⟩
    · obtain ⟨e, he, hs⟩ := ih _ _ h
      exact ⟨e, List.mem_cons_of_mem _ he, hs⟩

theorem deleteSidecars_sublist (ns : List Str) :
    ∀ st : List DirEntry, (deleteSidecars st ns).1.Sublist st := by
  induction ns with
  | nil => intro st; exact List.Sublist.refl st
  | cons m rest ih =>
    intro st
    simp only [deleteSidecars]
    by_cases hex : statExists st m = true
    · rw [if_pos hex]
      exact (ih _).trans (List.filter_sublist st)
    · rw [if_neg hex]
      exact ih st

theorem processDeletes_sublist_filter (fs : List DirEntry) :
    ∀ st : List DirEntry,
      (processDeletes st fs).1.Sublist
        (st.filter (fun e => decide (e.name ∉ fs.map DirEntry.name))) := by
  induction fs with
  | nil =>
    intro st
    simp only [List.map_nil]
    have : (fun e : DirEntry => decide (e.name ∉ ([] : List Str))) =
        fun _ => true := by
      funext e; simp
    rw [this, List.filter_true]
    exact List.Sublist.refl st
  | cons f rest ih =>
    intro st
    simp only [processDeletes]
    have h1 : (processDeletes (deleteArchiveAndSidecars st f.name).1 rest).1.Sublist
        ((deleteArchiveAndSidecars st f.name).1.filter
          (fun e => decide (e.name ∉ rest.map DirEntry.name))) := ih _
    have h2 : (deleteArchiveAndSidecars st f.name).1.Sublist
        (st.filter (fun e => !(e.name == f.name))) :=
      deleteSidecars_sublist _ _
    have h3 := h1.trans (h2.filter (fun e => decide (e.name ∉ rest.map DirEntry.name)))
    rw [List.filter_filter] at h3
    have heq : st.filter
        (fun e => decide (e.name ∉ rest.map DirEntry.name) && !(e.name == f.name)) =
        st.filter (fun e => decide (e.name ∉ (f :: rest).map DirEntry.name)) := by
      apply List.filter_congr
      intro e _
      by_cases hq : e.name = f.name <;>
        simp [hq, List.mem_cons, not_or, Bool.and_comm]
    rw [heq] at h3
    exact h3

theorem cleanup_post_count (dir : List DirEntry) (pfx : Str) (maxB : Int)
    (r : RotationResult) (h : CleanupOldBackups dir pfx maxB = some r) :
    ((r.remaining.filter (isBackupEntry pfx)).length : Int) ≤ maxB := by
  simp only [CleanupOldBackups] at h
  split at h
  case isTrue hle =>
    cases h
    exact hle
  case isFalse hgt =>
    split at h
    case isTrue => exact absurd h (by simp)
    case isFalse hsl =>
      cases h
      simp only
      set bf := dir.filter (isBackupEntry pfx) with hbf
      set K := ((bf.length : Int) - maxB).toNat with hK
      set ftd := (sortByModTime bf).take K with hftd
      set N := ftd.map DirEntry.name with hN
      set q : DirEntry → Bool := fun e => decide (e.name ∈ N) with hq
      -- the remaining listing is a sublist of the original minus the
      -- deleted archive names
      have hsub := processDeletes_sublist_filter ftd dir
      have h4 := hsub.filter (isBackupEntry pfx)
      rw [List.filter_filter] at h4
      have hcomm : dir.filter
          (fun e => isBackupEntry pfx e && decide (e.name ∉ N)) =
          bf.filter (fun e => !(q e)) := by
        rw [hbf, List.filter_filter]
        apply List.filter_congr
        intro e _
        simp [hq, Bool.and_comm]
      rw [hcomm] at h4
      have hlen1 : ((processDeletes dir ftd).1.filter (isBackupEntry pfx)).length ≤
          (bf.filter (fun e => !(q e))).length := h4.length_le
      -- counting: at least K matching entries carry a deleted name
      have hperm : (sortByModTime bf).Perm bf := List.perm_insertionSort _ bf
      have hcount1 : List.countP q ftd = ftd.length := by
        apply List.countP_eq_length.mpr
        intro e he
        simp only [hq, decide_eq_true_eq]
        exact hN ▸ List.mem_map_of_mem DirEntry.name he
      have hcount2 : List.countP q ftd ≤ List.countP q (sortByModTime bf) :=
        (hftd ▸ List.take_sublist K (sortByModTime bf)).countP_le q
      have hcount3 : List.countP q (sortByModTime bf) = List.countP q bf :=
        hperm.countP_eq q
      have hlensort : (sortByModTime bf).length = bf.length := hperm.length_eq
      have hftdlen : ftd.length = min K bf.length := by
        rw [hftd, List.length_take, hlensort]
      have hsplit := List.length_eq_countP_add_countP q bf
      have hfilter_not : (bf.filter (fun e => !(q e))).length =
          List.countP (fun a => decide ¬(q a = true)) bf := by
        rw [List.countP_eq_length_filter]
        congr 1
        apply List.filter_congr
        intro e _
        simp
      have hKle : K ≤ bf.length := by
        push_neg at hsl
        omega
      have hKval : (K : Int) = (bf.length : Int) - maxB := by
        push_neg at hsl
        rw [hK]
        omega
      omega

/-! ## Claim theorems: rotation -/

/-- C10: `CleanupOldBackups` is only safe for non-negative `maxBackups`:
whenever `maxBackups < 0` and the directory holds at least one matching
archive file, the slice expression
`backupFiles[:len(backupFiles)-maxBackups]` exceeds the slice bounds and
the run panics (the embedding reaches its error branch, `none`), so
callers must establish `maxBackups ≥ 0` as a precondition. -/
theorem cleanupOldBackups_negative_max_panics (dir : List DirEntry)
    (pfx : Str) (maxB : Int) (e : DirEntry) (hneg : maxB < 0)
    (he : e ∈ dir) (hb : isBackupEntry pfx e = true) :
    CleanupOldBackups dir pfx maxB = none := by
  have hmem : e ∈ dir.filter (isBackupEntry pfx) := List.mem_filter.mpr ⟨he, hb⟩
  have hlen : 0 < (dir.filter (isBackupEntry pfx)).length :=
    List.length_pos.mpr (List.ne_nil_of_mem hmem)
  simp only [CleanupOldBackups]
  rw [if_neg (by omega), if_pos (by omega)]

/-- Witness for C10 on a concrete directory. -/
theorem cleanupOldBackups_negative_max_panics_witness :
    CleanupOldBackups [⟨"b1.tar.gz".toList, false, 0⟩] "b".toList (-1) = none :=
  cleanupOldBackups_negative_max_panics _ _ _ ⟨"b1.tar.gz".toList, false, 0⟩
    (by decide) (by decide) (by decide)

/-- C6: rotation is idempotent.  If a `CleanupOldBackups` run completes
(in the model every attempted deletion succeeds, matching the claim's
"the first call's deletions all succeed") and no file is created in
between, a second run with the same arguments on the resulting directory
performs no deletions and leaves the listing unchanged. -/
theorem cleanupOldBackups_idempotent (dir : List DirEntry) (pfx : Str)
    (maxB : Int) (r : RotationResult)
    (h : CleanupOldBackups dir pfx maxB = some r) :
    CleanupOldBackups r.remaining pfx maxB = some ⟨r.remaining, [], []⟩ := by
  have hcount := cleanup_post_count dir pfx maxB r h
  simp only [CleanupOldBackups]
  rw [if_pos hcount]

/-- Witness for C6 on a concrete directory of two archives with limit 1. -/
theorem cleanupOldBackups_idempotent_witness :
    CleanupOldBackups
      (RotationResult.remaining
        ⟨[⟨"j-2.tar.gz".toList, false, 2⟩], ["j-1.tar.gz".toList], []⟩)
      "j-".toList 1 =
    some ⟨(RotationResult.remaining
        ⟨[⟨"j-2.tar.gz".toList, false, 2⟩], ["j-1.tar.gz".toList], []⟩), [], []⟩ :=
  cleanupOldBackups_idempotent
    [⟨"j-1.tar.gz".toList, false, 1⟩, ⟨"j-2.tar.gz".toList, false, 2⟩]
    "j-".toList 1
    ⟨[⟨"j-2.tar.gz".toList, false, 2⟩], ["j-1.tar.gz".toList], []⟩
    (by decide)

/-- C1 counterexample: at `maxBackups = -1` on a directory holding one
matching archive, the claim's "otherwise … deletes exactly
`count - maxBackups` of them" branch fails: the run panics (embedded as
`none`) and deletes nothing, instead of deleting
`count - maxBackups = 2` entries. -/
theorem cleanupOldBackups_spec_counterexample :
    CleanupOldBackups [⟨"b1.tar.gz".toList, false, 0⟩] "b".toList (-1) = none ∧
    ¬ ((1 : Int) ≤ -1) := by
  exact ⟨by decide, by decide⟩

/-- C1 (amended with the precondition `maxBackups ≥ 0` that the
counterexample forces): rotation considers exactly the non-directory
entries whose name starts with the prefix and ends with a recognized
archive suffix (`dir.filter (isBackupEntry pfx)`); if their count is at
most `maxBackups` it returns with no deletions, and otherwise it sorts
them ascending by modification time and deletes exactly the oldest
`count - maxBackups` of them. -/
theorem cleanupOldBackups_spec (dir : List DirEntry) (pfx : Str)
    (maxB : Int) (hmb : 0 ≤ maxB) :
    (((dir.filter (isBackupEntry pfx)).length : Int) ≤ maxB →
      CleanupOldBackups dir pfx maxB = some ⟨dir, [], []⟩) ∧
    (maxB < ((dir.filter (isBackupEntry pfx)).length : Int) →
      ∃ r, CleanupOldBackups dir pfx maxB = some r ∧
        r.deletedArchives =
          ((sortByModTime (dir.filter (isBackupEntry pfx))).take
            (((dir.filter (isBackupEntry pfx)).length : Int) - maxB).toNat).map
            DirEntry.name) := by
  constructor
  · intro hle
    simp only [CleanupOldBackups]
    rw [if_pos hle]
  · intro hgt
    have hrun : CleanupOldBackups dir pfx maxB =
        some ⟨(processDeletes dir
            ((sortByModTime (dir.filter (isBackupEntry pfx))).take
              (((dir.filter (isBackupEntry pfx)).length : Int) - maxB).toNat)).1,
          (processDeletes dir
            ((sortByModTime (dir.filter (isBackupEntry pfx))).take
              (((dir.filter (isBackupEntry pfx)).length : Int) - maxB).toNat)).2.1,
          (processDeletes dir
            ((sortByModTime (dir.filter (isBackupEntry pfx))).take
              (((dir.filter (isBackupEntry pfx)).length : Int) - maxB).toNat)).2.2⟩ := by
      simp only [CleanupOldBackups]
      rw [if_neg (by omega), if_neg (by omega)]
    exact ⟨_, hrun, processDeletes_archives _ _⟩

/-- Witness for C1 on a directory of two archives with limit 1. -/
theorem cleanupOldBackups_spec_witness :
    (((([⟨"j-1.tar.gz".toList, false, 1⟩, ⟨"j-2.tar.gz".toList, false, 2⟩] :
          List DirEntry).filter (isBackupEntry "j-".toList)).length : Int) ≤ 1 →
      CleanupOldBackups
        [⟨"j-1.tar.gz".toList, false, 1⟩, ⟨"j-2.tar.gz".toList, false, 2⟩]
        "j-".toList 1 =
        some ⟨[⟨"j-1.tar.gz".toList, false, 1⟩, ⟨"j-2.tar.gz".toList, false, 2⟩],
              [], []⟩) ∧
    ((1 : Int) < ((([⟨"j-1.tar.gz".toList, false, 1⟩,
          ⟨"j-2.tar.gz".toList, false, 2⟩] :
          List DirEntry).filter (isBackupEntry "j-".toList)).length : Int) →
      ∃ r, CleanupOldBackups
          [⟨"j-1.tar.gz".toList, false, 1⟩, ⟨"j-2.tar.gz".toList, false, 2⟩]
          "j-".toList 1 = some r ∧
        r.deletedArchives =
          ((sortByModTime (([⟨"j-1.tar.gz".toList, false, 1⟩,
              ⟨"j-2.tar.gz".toList, false, 2⟩] :
              List DirEntry).filter (isBackupEntry "j-".toList))).take
            (((([⟨"j-1.tar.gz".toList, false, 1⟩,
                ⟨"j-2.tar.gz".toList, false, 2⟩] :
                List DirEntry).filter (isBackupEntry "j-".toList)).length : Int) -
              1).toNat).map DirEntry.name) :=
  cleanupOldBackups_spec
    [⟨"j-1.tar.gz".toList, false, 1⟩, ⟨"j-2.tar.gz".toList, false, 2⟩]
    "j-".toList 1 (by decide)

/-- C5 counterexample: rotation also deletes sidecar config files.  On a
directory holding the matching archive `b1.tar.gz` and the file
`b1.backup.yaml`, a run with `maxBackups = 0` deletes `b1.backup.yaml`
as well, although that name carries no recognized archive suffix —
refuting "rotation never deletes a file whose name … does not carry a
recognized archive suffix". -/
theorem cleanupOldBackups_only_matching_counterexample :
    CleanupOldBackups
      [⟨"b1.tar.gz".toList, false, 0⟩, ⟨"b1.backup.yaml".toList, false, 0⟩]
      "b".toList 0 =
      some ⟨[], ["b1.tar.gz".toList], ["b1.backup.yaml".toList]⟩ ∧
    isBackupName "b".toList "b1.backup.yaml".toList = false := by
  exact ⟨by decide, by decide⟩

/-- C5 (amended to account for the sidecar deletions the counterexample
exhibits): every file a `CleanupOldBackups` run deletes either starts
with the given prefix and carries a recognized archive suffix, or is one
of the sidecar config names derived (by `configBaseName`) from a deleted
matching archive; no other file is ever deleted, regardless of age. -/
theorem cleanupOldBackups_only_matching (dir : List DirEntry) (pfx : Str)
    (maxB : Int) (r : RotationResult)
    (h : CleanupOldBackups dir pfx maxB = some r) :
    (∀ n ∈ r.deletedArchives, isBackupName pfx n = true) ∧
    (∀ n ∈ r.deletedConfigs, ∃ m ∈ r.deletedArchives, n ∈ sidecarNames m) := by
  simp only [CleanupOldBackups] at h
  split at h
  case isTrue =>
    cases h
    exact ⟨fun n hn => absurd hn (List.not_mem_nil n),
           fun n hn => absurd hn (List.not_mem_nil n)⟩
  case isFalse hgt =>
    split at h
    case isTrue => exact absurd h (by simp)
    case isFalse hsl =>
      cases h
      simp only
      set bf := dir.filter (isBackupEntry pfx) with hbf
      set ftd := (sortByModTime bf).take (((bf.length : Int) - maxB)).toNat
        with hftd
      have harch := processDeletes_archives ftd dir
      have hftd_sub : ∀ e ∈ ftd, isBackupEntry pfx e = true := by
        intro e he
        have h1 : e ∈ sortByModTime bf := (hftd ▸ List.take_sublist _ _).mem he
        have h2 : e ∈ bf := (List.perm_insertionSort _ bf).mem_iff.mp h1
        exact (List.mem_filter.mp (hbf ▸ h2)).2
      constructor
      · intro n hn
        rw [harch] at hn
        obtain ⟨e, he, rfl⟩ := List.mem_map.mp hn
        exact isBackupName_of_entry (hftd_sub e he)
      · intro n hn
        obtain ⟨e, he, hs⟩ := processDeletes_configs ftd dir n hn
        exact ⟨e.name, harch ▸ List.mem_map_of_mem DirEntry.name he, hs⟩

/-- Witness for C5 on a concrete directory holding an archive, its
sidecar, and an unrelated file. -/
theorem cleanupOldBackups_only_matching_witness :
    (∀ n ∈ (RotationResult.deletedArchives
        ⟨[⟨"keep.txt".toList, false, 5⟩], ["b1.tar.gz".toList],
         ["b1.backup.yaml".toList]⟩),
      isBackupName "b".toList n = true) ∧
    (∀ n ∈ (RotationResult.deletedConfigs
        ⟨[⟨"keep.txt".toList, false, 5⟩], ["b1.tar.gz".toList],
         ["b1.backup.yaml".toList]⟩),
      ∃ m ∈ (RotationResult.deletedArchives
        ⟨[⟨"keep.txt".toList, false, 5⟩], ["b1.tar.gz".toList],
         ["b1.backup.yaml".toList]⟩), n ∈ sidecarNames m) :=
  cleanupOldBackups_only_matching
    [⟨"b1.tar.gz".toList, false, 0⟩, ⟨"b1.backup.yaml".toList, false, 0⟩,
     ⟨"keep.txt".toList, false, 5⟩]
    "b".toList 0
    ⟨[⟨"keep.txt".toList, false, 5⟩], ["b1.tar.gz".toList],
     ["b1.backup.yaml".toList]⟩
    (by decide)

/-! ## Claim theorems: configuration load (C4) -/

theorem validateAndNormalize_ok {ts ts' : List BackupTarget}
    (h : validateAndNormalize ts = .ok ts') :
    ts' = ts.map normalizeTarget := by
  induction ts generalizing ts' with
  | nil =>
    simp only [validateAndNormalize] at h
    cases h
    rfl
  | cons t rest ih =>
    simp only [validateAndNormalize] at h
    cases hv : t.validate with
    | some e => rw [hv] at h; exact absurd h (by simp)
    | none =>
      rw [hv] at h
      cases hr : validateAndNormalize rest with
      | error ie => rw [hr] at h; exact absurd h (by simp)
      | ok rest2 =>
        rw [hr] at h
        cases h
        rw [List.map_cons, ih hr]

theorem validateAndNormalize_error {ts : List BackupTarget}
    (h : ∃ t ∈ ts, t.validate ≠ none) :
    ∃ e, validateAndNormalize ts = .error e := by
  induction ts with
  | nil => obtain ⟨t, ht, _⟩ := h; exact absurd ht (List.not_mem_nil t)
  | cons t rest ih =>
    cases hv : t.validate with
    | some e => exact ⟨(0, e), by simp [validateAndNormalize, hv]⟩
    | none =>
      obtain ⟨u, hu, huv⟩ := h
      rcases List.mem_cons.mp hu with rfl | hu2
      · exact absurd hv huv
      · obtain ⟨ie, hie⟩ := ih ⟨u, hu2, huv⟩
        exact ⟨(ie.1 + 1, ie.2), by simp [validateAndNormalize, hv, hie]⟩

/-- C4: a successful `ReadBackupConfig` load normalizes each target's
`maxBackups` to the default 7 whenever it is unset or non-positive
(`normalizeTarget`), and the load returns an error whenever some target
declares both, or neither, of its directory path and its single-file
path (`BackupTarget.validate`). -/
theorem readBackupConfig_spec (doc : BackupConfig) :
    (∀ res, ReadBackupConfig doc = .ok res →
      res.targets = doc.targets.map normalizeTarget) ∧
    ((∃ t ∈ doc.targets, t.validate ≠ none) →
      ∃ e, ReadBackupConfig doc = .error e) := by
  constructor
  · intro res hres
    simp only [ReadBackupConfig] at hres
    cases hvn : validateAndNormalize doc.targets with
    | error e => rw [hvn] at hres; exact absurd hres (by simp)
    | ok ts =>
      rw [hvn] at hres
      cases hres
      exact validateAndNormalize_ok hvn
  · intro hinv
    obtain ⟨e, he⟩ := validateAndNormalize_error hinv
    exact ⟨e, by simp [ReadBackupConfig, he]⟩

/-- Witness for C4: a target with `maxBackups = 0` loads with the default
7; a target declaring both a path and a file is rejected. -/
theorem readBackupConfig_spec_witness :
    (BackupConfig.mk [] [⟨"d".toList, [], 7, []⟩]).targets =
      (BackupConfig.mk [] [⟨"d".toList, [], 0, []⟩]).targets.map normalizeTarget ∧
    (∃ e, ReadBackupConfig ⟨[], [⟨"d".toList, "f".toList, 1, []⟩]⟩ = .error e) :=
  ⟨(readBackupConfig_spec ⟨[], [⟨"d".toList, [], 0, []⟩]⟩).1
      ⟨[], [⟨"d".toList, [], 7, []⟩]⟩ (by rfl),
   (readBackupConfig_spec ⟨[], [⟨"d".toList, "f".toList, 1, []⟩]⟩).2
      (by decide)⟩

/-! ## Claim theorems: backup-record history (C2, C9) -/

theorem addRecordToTarget_path (t : BackupTarget) (r : BackupRecord) :
    (addRecordToTarget t r).path = t.path := by
  simp only [addRecordToTarget]
  split <;> rfl

theorem addRecordToTarget_file (t : BackupTarget) (r : BackupRecord) :
    (addRecordToTarget t r).file = t.file := by
  simp only [addRecordToTarget]
  split <;> rfl

theorem addRecordToTarget_isFileTarget (t : BackupTarget) (r : BackupRecord) :
    (addRecordToTarget t r).isFileTarget = t.isFileTarget := by
  simp only [BackupTarget.isFileTarget, addRecordToTarget_file]

theorem addRecordToTarget_dest (t : BackupTarget) (r : BackupRecord) :
    (addRecordToTarget t r).getDestination = t.getDestination := by
  simp only [BackupTarget.getDestination, addRecordToTarget_isFileTarget,
    addRecordToTarget_file, addRecordToTarget_path]

theorem set_self_of_getElem? {α : Type} :
    ∀ (ts : List α) (i : Nat) (t : α), ts[i]? = some t → ts.set i t = ts := by
  intro ts
  induction ts with
  | nil => intro i t h; simp at h
  | cons x rest ih =>
    intro i t h
    cases i with
    | zero => simp_all
    | succ j =>
      simp only [List.getElem?_cons_succ] at h
      simp [List.set_cons_succ, ih j t h]

theorem findTargetIdx_set_preserved :
    ∀ (ts : List BackupTarget) (i : Nat) (t t' : BackupTarget) (p : Str),
      ts[i]? = some t → t'.getDestination = t.getDestination →
      findTargetIdx (ts.set i t') p = findTargetIdx ts p := by
  intro ts
  induction ts with
  | nil => intro i t t' p h _; simp at h
  | cons x rest ih =>
    intro i t t' p h hdest
    cases i with
    | zero =>
      simp only [List.getElem?_cons_zero] at h
      cases h
      simp only [List.set_cons_zero, findTargetIdx, hdest]
    | succ j =>
      simp only [List.getElem?_cons_succ] at h
      simp only [List.set_cons_succ, findTargetIdx, ih j t t' p h hdest]

theorem addBackupRecord_foldl (p : Str) :
    ∀ (rs : List BackupRecord) (cfg : BackupConfig) (i : Nat) (t : BackupTarget),
      findTargetIdx cfg.targets p = some i → cfg.targets[i]? = some t →
      (rs.foldl (fun c r => AddBackupRecord c p r) cfg).targets =
        cfg.targets.set i (rs.foldl addRecordToTarget t) := by
  intro rs
  induction rs with
  | nil =>
    intro cfg i t hf ht
    simp only [List.foldl_nil]
    exact (set_self_of_getElem? cfg.targets i t ht).symm
  | cons r rest ih =>
    intro cfg i t hf ht
    have hlt : i < cfg.targets.length := (List.getElem?_eq_some.mp ht).1
    have hstep : AddBackupRecord cfg p r =
        { cfg with targets := cfg.targets.set i (addRecordToTarget t r) } := by
      simp only [AddBackupRecord, hf, ht]
    have hf2 : findTargetIdx (cfg.targets.set i (addRecordToTarget t r)) p =
        some i := by
      rw [findTargetIdx_set_preserved cfg.targets i t _ p ht
        (addRecordToTarget_dest t r)]
      exact hf
    have ht2 : (cfg.targets.set i (addRecordToTarget t r))[i]? =
        some (addRecordToTarget t r) := List.getElem?_set_self hlt
    calc ((r :: rest).foldl (fun c r => AddBackupRecord c p r) cfg).targets
        = (rest.foldl (fun c r => AddBackupRecord c p r)
            { cfg with targets := cfg.targets.set i (addRecordToTarget t r) }).targets := by
          rw [List.foldl_cons, hstep]
      _ = (cfg.targets.set i (addRecordToTarget t r)).set i
            (rest.foldl addRecordToTarget (addRecordToTarget t r)) :=
          ih _ i (addRecordToTarget t r) hf2 ht2
      _ = cfg.targets.set i ((r :: rest).foldl addRecordToTarget t) := by
          rw [List.set_set, List.foldl_cons]

theorem foldl_addRecord_fileTarget :
    ∀ (rs : List BackupRecord) (t : BackupTarget),
      t.isFileTarget = true → (hne : rs ≠ []) →
      (rs.foldl addRecordToTarget t).backups = [rs.getLast hne] := by
  intro rs
  induction rs with
  | nil => intro t _ hne; exact absurd rfl hne
  | cons r rest ih =>
    intro t hfile hne
    rw [List.foldl_cons]
    cases rest with
    | nil =>
      simp only [List.foldl_nil, addRecordToTarget, hfile, if_pos]
      rfl
    | cons r2 rest2 =>
      have hne2 : r2 :: rest2 ≠ [] := List.cons_ne_nil r2 rest2
      have hfile2 : (addRecordToTarget t r).isFileTarget = true := by
        rw [addRecordToTarget_isFileTarget]; exact hfile
      rw [ih (addRecordToTarget t r) hfile2 hne2]
      congr 1

/-- C9: for a single-file target, after any number of `AddBackupRecord`
calls for that target's destination, the target's backups list has
length exactly 1 and holds the most recently appended record (the
entire history is replaced, no rotation). -/
theorem addBackupRecord_fileTarget_history (cfg : BackupConfig) (p : Str)
    (i : Nat) (t : BackupTarget) (rs : List BackupRecord)
    (hf : findTargetIdx cfg.targets p = some i)
    (ht : cfg.targets[i]? = some t)
    (hfile : t.isFileTarget = true) (hne : rs ≠ []) :
    ∃ t', ((rs.foldl (fun c r => AddBackupRecord c p r) cfg).targets)[i]? =
        some t' ∧ t'.backups = [rs.getLast hne] := by
  have hlt : i < cfg.targets.length := (List.getElem?_eq_some.mp ht).1
  refine ⟨rs.foldl addRecordToTarget t, ?_, ?_⟩
  · rw [addBackupRecord_foldl p rs cfg i t hf ht]
    exact List.getElem?_set_self hlt
  · exact foldl_addRecord_fileTarget rs t hfile hne

/-- Witness for C9: three appends to a file target leave exactly the
last record. -/
theorem addBackupRecord_fileTarget_history_witness :
    ∃ t', ((([⟨"a".toList, "s".toList, 1, 10⟩, ⟨"b".toList, "s".toList, 2, 20⟩,
          ⟨"c".toList, "s".toList, 3, 30⟩] : List BackupRecord).foldl
        (fun c r => AddBackupRecord c "f".toList r)
        ⟨[], [⟨[], "f".toList, 7, []⟩]⟩).targets)[0]? = some t' ∧
      t'.backups = [([⟨"a".toList, "s".toList, 1, 10⟩,
        ⟨"b".toList, "s".toList, 2, 20⟩,
        ⟨"c".toList, "s".toList, 3, 30⟩] : List BackupRecord).getLast
          (by decide)] :=
  addBackupRecord_fileTarget_history ⟨[], [⟨[], "f".toList, 7, []⟩]⟩
    "f".toList 0 ⟨[], "f".toList, 7, []⟩ _
    (by decide) (by decide) (by decide) (by decide)

theorem addRecordToTarget_dir_step (t : BackupTarget) (r : BackupRecord)
    (hdir : t.isFileTarget = false) (hk : 0 < t.maxBackups) :
    (addRecordToTarget t r).backups =
      (r :: t.backups).take t.maxBackups.toNat ∧
    (addRecordToTarget t r).maxBackups = t.maxBackups := by
  simp only [addRecordToTarget, hdir, Bool.false_eq_true, if_false]
  rw [if_neg (by omega : ¬ t.maxBackups ≤ 0)]
  split
  case isTrue h => exact ⟨rfl, rfl⟩
  case isFalse h =>
    refine ⟨?_, rfl⟩
    rw [List.take_of_length_le (by simp at h ⊢; omega)]

theorem foldl_addRecord_dir_backups :
    ∀ (rs : List BackupRecord) (t : BackupTarget) (cs : List BackupRecord),
      t.isFileTarget = false → 0 < t.maxBackups →
      t.backups = cs.take t.maxBackups.toNat →
      (rs.foldl addRecordToTarget t).backups =
        (rs.reverse ++ cs).take t.maxBackups.toNat ∧
      (rs.foldl addRecordToTarget t).maxBackups = t.maxBackups := by
  intro rs
  induction rs with
  | nil =>
    intro t cs hdir hk hb
    simp only [List.foldl_nil, List.reverse_nil, List.nil_append]
    exact ⟨hb, trivial⟩
  | cons r rest ih =>
    intro t cs hdir hk hb
    rw [List.foldl_cons]
    obtain ⟨hstep_b, hstep_m⟩ := addRecordToTarget_dir_step t r hdir hk
    have hdir2 : (addRecordToTarget t r).isFileTarget = false := by
      rw [addRecordToTarget_isFileTarget]; exact hdir
    have hk2 : 0 < (addRecordToTarget t r).maxBackups := by
      rw [hstep_m]; exact hk
    have hK1 : 1 ≤ t.maxBackups.toNat := by omega
    have htake : (r :: cs.take t.maxBackups.toNat).take t.maxBackups.toNat =
        (r :: cs).take t.maxBackups.toNat := by
      obtain ⟨K2, hK2⟩ : ∃ K2, t.maxBackups.toNat = K2 + 1 :=
        ⟨t.maxBackups.toNat - 1, by omega⟩
      rw [hK2, List.take_succ_cons, List.take_succ_cons, List.take_take,
        Nat.min_eq_left (Nat.le_succ K2)]
    have hb2 : (addRecordToTarget t r).backups =
        (r :: cs).take (addRecordToTarget t r).maxBackups.toNat := by
      rw [hstep_m, hstep_b, hb, htake]
    obtain ⟨hfold_b, hfold_m⟩ := ih (addRecordToTarget t r) (r :: cs) hdir2 hk2 hb2
    constructor
    · rw [hfold_b, hstep_m, List.reverse_cons, List.append_assoc,
        List.singleton_append]
    · rw [hfold_m, hstep_m]

/-- C2: for a directory target with `maxBackups = k > 0` and an empty
history, after appending records `rs` (in chronological order of
`createdAt`, as the orchestrator does) via `AddBackupRecord` for that
target's destination, the target's backups list has length
`min |rs| k`, is ordered newest-first by `createdAt`, and never exceeds
the limit (instantiating `rs` at each prefix of the call sequence gives
the bound for every transient state, since every insertion prepends and
then trims). -/
theorem addBackupRecord_dirTarget_history (cfg : BackupConfig) (p : Str)
    (i : Nat) (t : BackupTarget) (rs : List BackupRecord)
    (hf : findTargetIdx cfg.targets p = some i)
    (ht : cfg.targets[i]? = some t)
    (hdir : t.isFileTarget = false) (hk : 0 < t.maxBackups)
    (hb : t.backups = [])
    (hmono : rs.Pairwise (fun a b => a.createdAt ≤ b.createdAt)) :
    ∃ t', ((rs.foldl (fun c r => AddBackupRecord c p r) cfg).targets)[i]? =
        some t' ∧
      (t'.backups.length : Int) = min (rs.length : Int) t.maxBackups ∧
      t'.backups.Pairwise (fun a b => b.createdAt ≤ a.createdAt) ∧
      (t'.backups.length : Int) ≤ t.maxBackups := by
  have hlt : i < cfg.targets.length := (List.getElem?_eq_some.mp ht).1
  refine ⟨rs.foldl addRecordToTarget t, ?_, ?_, ?_, ?_⟩
  · rw [addBackupRecord_foldl p rs cfg i t hf ht]
    exact List.getElem?_set_self hlt
  all_goals
    obtain ⟨hfold_b, _⟩ := foldl_addRecord_dir_backups rs t [] hdir hk
      (by rw [hb, List.take_nil])
  · rw [hfold_b, List.append_nil, List.length_take, List.length_reverse]
    omega
  · rw [hfold_b, List.append_nil]
    have hrev : rs.reverse.Pairwise (fun a b => b.createdAt ≤ a.createdAt) :=
      List.pairwise_reverse.mpr hmono
    exact hrev.sublist (List.take_sublist _ _)
  · rw [hfold_b, List.append_nil, List.length_take, List.length_reverse]
    omega

/-- Witness for C2: three chronological appends to a directory target
with limit 2 keep the two newest records, newest first. -/
theorem addBackupRecord_dirTarget_history_witness :
    ∃ t', ((([⟨"a".toList, "s".toList, 1, 10⟩, ⟨"b".toList, "s".toList, 2, 20⟩,
          ⟨"c".toList, "s".toList, 3, 30⟩] : List BackupRecord).foldl
        (fun c r => AddBackupRecord c "d".toList r)
        ⟨[], [⟨"d".toList, [], 2, []⟩]⟩).targets)[0]? = some t' ∧
      (t'.backups.length : Int) =
        min (([⟨"a".toList, "s".toList, 1, 10⟩, ⟨"b".toList, "s".toList, 2, 20⟩,
          ⟨"c".toList, "s".toList, 3, 30⟩] : List BackupRecord).length : Int) 2 ∧
      t'.backups.Pairwise (fun a b => b.createdAt ≤ a.createdAt) ∧
      (t'.backups.length : Int) ≤ 2 :=
  addBackupRecord_dirTarget_history ⟨[], [⟨"d".toList, [], 2, []⟩]⟩
    "d".toList 0 ⟨"d".toList, [], 2, []⟩ _
    (by decide) (by decide) (by decide) (by decide) (by decide) (by decide)

/-! ## Claim theorems: archive builder header formats (C7) -/

mutual

theorem walkNode_format (matchFn : Str → Str → Bool) (excludes : List Str)
    (tmp rel abs : Str) (n : FNode) :
    ∀ e ∈ walkNode matchFn excludes tmp rel abs n,
      e.format = if RecommendedMaxFileSize < e.size then TarFormat.pax
                 else TarFormat.unknownFormat := by
  cases n with
  | file nm sz =>
    intro e he
    simp only [walkNode] at he
    split at he
    · exact absurd he (List.not_mem_nil e)
    · split at he
      · exact absurd he (List.not_mem_nil e)
      · rcases List.mem_singleton.mp he with rfl
        simp only [headerOf]
  | dir nm cs =>
    intro e he
    simp only [walkNode] at he
    split at he
    · exact absurd he (List.not_mem_nil e)
    · split at he
      · exact walkForest_format matchFn excludes tmp rel abs cs e he
      · rcases List.mem_cons.mp he with rfl | he2
        · simp only [headerOf]
        · exact walkForest_format matchFn excludes tmp rel abs cs e he2

theorem walkForest_format (matchFn : Str → Str → Bool) (excludes : List Str)
    (tmp rel abs : Str) (f : FForest) :
    ∀ e ∈ walkForest matchFn excludes tmp rel abs f,
      e.format = if RecommendedMaxFileSize < e.size then TarFormat.pax
                 else TarFormat.unknownFormat := by
  cases f with
  | nil => intro e he; exact absurd he (List.not_mem_nil e)
  | cons c rest =>
    intro e he
    simp only [walkForest] at he
    rcases List.mem_append.mp he with h | h
    · exact walkNode_format matchFn excludes tmp _ _ c e h
    · exact walkForest_format matchFn excludes tmp rel abs rest e h

end

/-- C7: every member the archive builder writes gets the extended PAX
header exactly when its size exceeds the fixed threshold
`RecommendedMaxFileSize` (8 GiB minus 100 MiB), and the default legacy
format otherwise; in particular a 9 GiB regular file is archived with a
PAX header carrying its correct size. -/
theorem createTarGzArchive_pax (matchFn : Str → Str → Bool)
    (tmp src : Str) (t : FForest) (excludes : List Str) :
    (∀ e ∈ CreateTarGzArchive matchFn tmp src t excludes,
      (e.isDir = false ∧ RecommendedMaxFileSize < e.size →
        e.format = TarFormat.pax) ∧
      (¬ RecommendedMaxFileSize < e.size →
        e.format = TarFormat.unknownFormat)) ∧
    RecommendedMaxFileSize = 8 * GB - 100 * MB ∧
    CreateTarGzArchive (fun _ _ => false) "/tmp".toList "/data".toList
      (.cons (.file "big.bin".toList (9 * GB)) .nil) [] =
      [⟨"big.bin".toList, 9 * GB, false, TarFormat.pax⟩] := by
  refine ⟨?_, rfl, by decide⟩
  intro e he
  have hfmt := walkForest_format matchFn excludes tmp [] src t e he
  constructor
  · intro ⟨_, hlarge⟩
    rw [hfmt, if_pos hlarge]
  · intro hsmall
    rw [hfmt, if_neg hsmall]

/-- Witness for C7: the 9 GiB member of the concrete archive above is
regular, oversized, and carries the PAX format. -/
theorem createTarGzArchive_pax_witness :
    ((⟨"big.bin".toList, 9 * GB, false, TarFormat.pax⟩ : TarEntry).isDir = false ∧
      RecommendedMaxFileSize <
        (⟨"big.bin".toList, 9 * GB, false, TarFormat.pax⟩ : TarEntry).size →
      (⟨"big.bin".toList, 9 * GB, false, TarFormat.pax⟩ : TarEntry).format =
        TarFormat.pax) ∧
    (¬ RecommendedMaxFileSize <
        (⟨"big.bin".toList, 9 * GB, false, TarFormat.pax⟩ : TarEntry).size →
      (⟨"big.bin".toList, 9 * GB, false, TarFormat.pax⟩ : TarEntry).format =
        TarFormat.unknownFormat) :=
  (createTarGzArchive_pax (fun _ _ => false) "/tmp".toList "/data".toList
    (.cons (.file "big.bin".toList (9 * GB)) .nil) []).1
    ⟨"big.bin".toList, 9 * GB, false, TarFormat.pax⟩
    (by decide)

/-! ## Claim theorems: directory-prefix exclusion (C8) -/

/-- The directory-prefix pattern semantics of the claim: the path equals
the pattern, or starts with the pattern followed by the path
separator. -/
def dirPrefixMatchB (pat p : Str) : Bool :=
  (p == pat) || (pat ++ [pathSep]).isPrefixOf p

theorem dirPrefixMatchB_transfer {pat p q : Str}
    (hp : dirPrefixMatchB pat p = true)
    (hq : q = p ∨ (p ++ [pathSep]) <+: q) :
    pat <+: q ∧ dirPrefixMatchB pat q = true := by
  simp only [dirPrefixMatchB, Bool.or_eq_true, beq_iff_eq,
    List.isPrefixOf_iff_prefix] at hp ⊢
  have hpq : pat <+: p := by
    rcases hp with rfl | hp2
    · exact List.prefix_refl p
    · exact (List.prefix_append pat [pathSep]).trans hp2
  rcases hq with rfl | hq2
  · exact ⟨hpq, hp⟩
  · have hpq2 : p <+: q := (List.prefix_append p [pathSep]).trans hq2
    refine ⟨hpq.trans hpq2, Or.inr ?_⟩
    rcases hp with rfl | hp2
    · exact hq2
    · exact hp2.trans hpq2

theorem checkExcluded_of_dirPrefix (matchFn : Str → Str → Bool) {pat q : Str} :
    ∀ excludes : List Str, pat ∈ excludes → dirPrefixMatchB pat q = true →
      checkExcluded matchFn q excludes = true := by
  intro excludes
  induction excludes with
  | nil => intro h _; exact absurd h (List.not_mem_nil pat)
  | cons ex rest ih =>
    intro hmem hdir
    rcases List.mem_cons.mp hmem with rfl | hmem2
    · simp only [checkExcluded]
      cases hm : matchFn pat q with
      | true => simp [hm]
      | false =>
        have hpreq : pat <+: q ∧
            (q.length = pat.length ∨
              (pat.length < q.length ∧ q[pat.length]? = some pathSep)) := by
          simp only [dirPrefixMatchB, Bool.or_eq_true, beq_iff_eq,
            List.isPrefixOf_iff_prefix] at hdir
          rcases hdir with rfl | hpre
          · exact ⟨List.prefix_refl q, Or.inl rfl⟩
          · obtain ⟨tl, htl⟩ := hpre
            have hq : q = pat ++ ([pathSep] ++ tl) := by
              rw [← htl, List.append_assoc]
            have hlen : pat.length + 1 ≤ q.length := by
              have hlen2 := congrArg List.length htl
              simp only [List.length_append, List.length_cons,
                List.length_nil] at hlen2
              omega
            have hget : q[pat.length]? = some pathSep := by
              rw [hq, List.getElem?_append_right (Nat.le_refl pat.length)]
              simp
            exact ⟨hq ▸ List.prefix_append _ _, Or.inr ⟨by omega, hget⟩⟩
        rcases hpreq.2 with hl | ⟨hl, hget⟩
        · simp [hpreq.1, hl, List.isPrefixOf_iff_prefix]
        · simp [hpreq.1, hl, hget, List.isPrefixOf_iff_prefix]
    · have hrec := ih hmem2 hdir
      simp only [checkExcluded]
      split
      · rfl
      · split
        · rfl
        · exact hrec

mutual

theorem walkNode_not_excluded (matchFn : Str → Str → Bool)
    (excludes : List Str) (tmp rel abs : Str) (n : FNode) :
    ∀ e ∈ walkNode matchFn excludes tmp rel abs n,
      exclHit matchFn excludes e.name = false := by
  cases n with
  | file nm sz =>
    intro e he
    simp only [walkNode] at he
    split at he
    · exact absurd he (List.not_mem_nil e)
    case isFalse hex =>
      split at he
      · exact absurd he (List.not_mem_nil e)
      · rcases List.mem_singleton.mp he with rfl
        exact Bool.not_eq_true _ ▸ Bool.of_not_eq_true hex
  | dir nm cs =>
    intro e he
    simp only [walkNode] at he
    split at he
    · exact absurd he (List.not_mem_nil e)
    case isFalse hex =>
      split at he
      · exact walkForest_not_excluded matchFn excludes tmp rel abs cs e he
      · rcases List.mem_cons.mp he with rfl | he2
        · exact Bool.of_not_eq_true hex
        · exact walkForest_not_excluded matchFn excludes tmp rel abs cs e he2

theorem walkForest_not_excluded (matchFn : Str → Str → Bool)
    (excludes : List Str) (tmp rel abs : Str) (f : FForest) :
    ∀ e ∈ walkForest matchFn excludes tmp rel abs f,
      exclHit matchFn excludes e.name = false := by
  cases f with
  | nil => intro e he; exact absurd he (List.not_mem_nil e)
  | cons c rest =>
    intro e he
    simp only [walkForest] at he
    rcases List.mem_append.mp he with h | h
    · exact walkNode_not_excluded matchFn excludes tmp _ _ c e h
    · exact walkForest_not_excluded matchFn excludes tmp rel abs rest e h

end

theorem checkFileSizesStep_over (matchFn : Str → Str → Bool)
    (excludes : List Str) (m : Int) (s : FileSizeSummary) (e : FsEntry)
    (hs : ∀ x ∈ s.filesOverSize, checkExcluded matchFn x excludes = false) :
    ∀ x ∈ (checkFileSizesStep matchFn excludes m s e).filesOverSize,
      checkExcluded matchFn x excludes = false := by
  intro x hx
  simp only [checkFileSizesStep] at hx
  split at hx
  · exact hs x hx
  · split at hx
    · exact hs x hx
    case isFalse hexc =>
      split at hx <;> split at hx <;>
        first
        | exact hs x hx
        | (rcases List.mem_append.mp hx with h | h
           · exact hs x h
           · rcases List.mem_singleton.mp h with rfl
             exact Bool.of_not_eq_true hexc)

theorem checkFileSizes_over_not_excluded (matchFn : Str → Str → Bool)
    (excludes : List Str) (m : Int) :
    ∀ (entries : List FsEntry) (s : FileSizeSummary),
      (∀ x ∈ s.filesOverSize, checkExcluded matchFn x excludes = false) →
      ∀ x ∈ (entries.foldl (checkFileSizesStep matchFn excludes m) s).filesOverSize,
        checkExcluded matchFn x excludes = false := by
  intro entries
  induction entries with
  | nil => intro s hs; exact hs
  | cons e rest ih =>
    intro s hs
    rw [List.foldl_cons]
    exact ih _ (checkFileSizesStep_over matchFn excludes m s e hs)

theorem listLargeFilesStep_not_excluded (matchFn : Str → Str → Bool)
    (excludes : List Str) (thr : Int) (acc : List LargeFileInfo) (e : FsEntry)
    (ha : ∀ i ∈ acc, checkExcluded matchFn i.relPath excludes = false) :
    ∀ i ∈ listLargeFilesStep matchFn excludes thr acc e,
      checkExcluded matchFn i.relPath excludes = false := by
  intro i hi
  simp only [listLargeFilesStep] at hi
  split at hi
  · exact ha i hi
  · split at hi
    · exact ha i hi
    case isFalse hexc =>
      split at hi
      · rcases List.mem_append.mp hi with h | h
        · exact ha i h
        · rcases List.mem_singleton.mp h with rfl
          exact Bool.of_not_eq_true hexc
      · exact ha i hi

theorem listLargeFiles_collect_not_excluded (matchFn : Str → Str → Bool)
    (excludes : List Str) (thr : Int) :
    ∀ (entries : List FsEntry) (acc : List LargeFileInfo),
      (∀ i ∈ acc, checkExcluded matchFn i.relPath excludes = false) →
      ∀ i ∈ entries.foldl (listLargeFilesStep matchFn excludes thr) acc,
        checkExcluded matchFn i.relPath excludes = false := by
  intro entries
  induction entries with
  | nil => intro acc ha; exact ha
  | cons e rest ih =>
    intro acc ha
    rw [List.foldl_cons]
    exact ih _ (listLargeFilesStep_not_excluded matchFn excludes thr acc e ha)

/-- C8: for every exclusion pattern set and every source tree, a path
matching a directory-prefix pattern (the path equals the pattern or
starts with the pattern followed by the path separator) and every
descendant of that path are excluded from the archive produced by
`CreateTarGzArchive` and absent from the size analysis of
`CheckFileSizes` and `ListLargeFiles` (for every glob matcher). -/
theorem exclusion_dirPrefix (matchFn : Str → Str → Bool)
    (excludes : List Str) (pat p q : Str) (hpat : pat ∈ excludes)
    (hp : dirPrefixMatchB pat p = true)
    (hq : q = p ∨ (p ++ [pathSep]) <+: q) :
    (∀ tmp src t e, e ∈ CreateTarGzArchive matchFn tmp src t excludes →
      ¬ e.name = q) ∧
    (∀ entries maxGB,
      q ∉ (CheckFileSizes matchFn entries excludes maxGB).filesOverSize) ∧
    (∀ entries thrMB i, i ∈ ListLargeFiles matchFn entries excludes thrMB →
      ¬ i.relPath = q) := by
  obtain ⟨hpre, hdirq⟩ := dirPrefixMatchB_transfer hp hq
  have hexcl : checkExcluded matchFn q excludes = true :=
    checkExcluded_of_dirPrefix matchFn excludes hpat hdirq
  refine ⟨?_, ?_, ?_⟩
  · intro tmp src t e he heq
    simp only [CreateTarGzArchive] at he
    have hhit := walkForest_not_excluded matchFn excludes tmp [] src t e he
    rw [heq] at hhit
    simp only [exclHit, List.any_eq_false] at hhit
    have := hhit pat hpat
    simp only [Bool.or_eq_true, not_or] at this
    exact this.2 (List.isPrefixOf_iff_prefix.mpr hpre)
  · intro entries maxGB hqmem
    simp only [CheckFileSizes] at hqmem
    have hfalse := checkFileSizes_over_not_excluded matchFn excludes
      (maxGB * GB) entries ⟨0, [], 0, []⟩
      (fun x hx => absurd hx (List.not_mem_nil x)) q hqmem
    rw [hexcl] at hfalse
    exact absurd hfalse (by simp)
  · intro entries thrMB i hi hieq
    simp only [ListLargeFiles] at hi
    have hi2 := (List.perm_insertionSort _ _).mem_iff.mp hi
    have hfalse := listLargeFiles_collect_not_excluded matchFn excludes
      (thrMB * MB) entries []
      (fun x hx => absurd hx (List.not_mem_nil x)) i hi2
    rw [hieq, hexcl] at hfalse
    exact absurd hfalse (by simp)

/-- Witness for C8 at the pattern `node_modules` against the descendant
path `node_modules/pkg.js`. -/
theorem exclusion_dirPrefix_witness :
    (∀ tmp src t e,
      e ∈ CreateTarGzArchive (fun _ _ => false) tmp src t
        ["node_modules".toList] →
      ¬ e.name = "node_modules/pkg.js".toList) ∧
    (∀ entries maxGB,
      "node_modules/pkg.js".toList ∉
        (CheckFileSizes (fun _ _ => false) entries ["node_modules".toList]
          maxGB).filesOverSize) ∧
    (∀ entries thrMB i,
      i ∈ ListLargeFiles (fun _ _ => false) entries ["node_modules".toList]
        thrMB →
      ¬ i.relPath = "node_modules/pkg.js".toList) :=
  exclusion_dirPrefix (fun _ _ => false) ["node_modules".toList]
    "node_modules".toList "node_modules".toList "node_modules/pkg.js".toList
    (by decide) (by decide) (Or.inr (by decide))

/-! ## Claim theorems: non-positive size-analysis thresholds (C3) -/

/-- C3 counterexample: at threshold 0 neither analyzer reports every
non-excluded regular file.  The over-threshold list of `CheckFileSizes`
is empty although the walked tree holds the non-excluded regular file
`a` of size 5 (the `maxSize > 0 &&` guard disables the report), and
`ListLargeFiles` omits the non-excluded regular zero-size file `z`
(the code tests `fileSize > thresholdBytes`, and `0 > 0` fails). -/
theorem sizeAnalysis_zero_threshold_counterexample :
    (CheckFileSizes (fun _ _ => false) [⟨"a".toList, false, 5, 0⟩]
      [] 0).filesOverSize = [] ∧
    checkExcluded (fun _ _ => false) "a".toList [] = false ∧
    ListLargeFiles (fun _ _ => false) [⟨"z".toList, false, 0, 0⟩] [] 0 = [] ∧
    checkExcluded (fun _ _ => false) "z".toList [] = false := by
  exact ⟨by decide, by decide, by decide, by decide⟩

theorem checkFileSizesStep_over_nonpos (matchFn : Str → Str → Bool)
    (excludes : List Str) (m : Int) (hm : m ≤ 0) (s : FileSizeSummary)
    (e : FsEntry) :
    (checkFileSizesStep matchFn excludes m s e).filesOverSize =
      s.filesOverSize := by
  simp only [checkFileSizesStep]
  split
  · rfl
  · split
    · rfl
    · split
      case isTrue h =>
        rw [Bool.and_eq_true] at h
        exact absurd (of_decide_eq_true h.1) (by omega)
      case isFalse h =>
        split <;> rfl

theorem checkFileSizes_over_nonpos_fold (matchFn : Str → Str → Bool)
    (excludes : List Str) (m : Int) (hm : m ≤ 0) :
    ∀ (entries : List FsEntry) (s : FileSizeSummary),
      (entries.foldl (checkFileSizesStep matchFn excludes m) s).filesOverSize =
        s.filesOverSize := by
  intro entries
  induction entries with
  | nil => intro s; rfl
  | cons e rest ih =>
    intro s
    rw [List.foldl_cons, ih,
      checkFileSizesStep_over_nonpos matchFn excludes m hm]

theorem listLargeFiles_fold_mono (matchFn : Str → Str → Bool)
    (excludes : List Str) (thr : Int) :
    ∀ (entries : List FsEntry) (acc : List LargeFileInfo) (i : LargeFileInfo),
      i ∈ acc →
      i ∈ entries.foldl (listLargeFilesStep matchFn excludes thr) acc := by
  intro entries
  induction entries with
  | nil => intro acc i hi; exact hi
  | cons e rest ih =>
    intro acc i hi
    rw [List.foldl_cons]
    apply ih
    simp only [listLargeFilesStep]
    split
    · exact hi
    · split
      · exact hi
      · split
        · exact List.mem_append_left _ hi
        · exact hi

theorem listLargeFiles_fold_mem (matchFn : Str → Str → Bool)
    (excludes : List Str) (thr : Int) :
    ∀ (entries : List FsEntry) (acc : List LargeFileInfo) (e : FsEntry),
      e ∈ entries → e.isDir = false →
      checkExcluded matchFn e.relPath excludes = false → thr < e.size →
      (⟨e.relPath, e.size, e.modTime⟩ : LargeFileInfo) ∈
        entries.foldl (listLargeFilesStep matchFn excludes thr) acc := by
  intro entries
  induction entries with
  | nil => intro acc e he; exact absurd he (List.not_mem_nil e)
  | cons f rest ih =>
    intro acc e he hdir hexc hsz
    rw [List.foldl_cons]
    rcases List.mem_cons.mp he with rfl | he2
    · apply listLargeFiles_fold_mono
      simp only [listLargeFilesStep, hdir, hexc, Bool.false_eq_true, if_false]
      rw [if_pos hsz]
      exact List.mem_append_right _ (List.mem_singleton.mpr rfl)
    · exact ih _ e he2 hdir hexc hsz

/-- C3 (amended as the counterexample forces): when the size-analysis
threshold is zero or negative, `CheckFileSizes` reports no over-threshold
files at all (the `maxSize > 0` guard disables the report), while
`ListLargeFiles` reports every non-excluded regular file whose size
strictly exceeds `thresholdMB * MB` (so at a zero threshold zero-size
files are omitted, and for a negative threshold every non-excluded
regular file of non-negative size is reported). -/
theorem sizeAnalysis_nonpositive_threshold (matchFn : Str → Str → Bool)
    (entries : List FsEntry) (excludes : List Str) :
    (∀ maxSizeGB : Int, maxSizeGB ≤ 0 →
      (CheckFileSizes matchFn entries excludes maxSizeGB).filesOverSize = []) ∧
    (∀ thresholdMB : Int, thresholdMB ≤ 0 →
      ∀ e ∈ entries, e.isDir = false →
        checkExcluded matchFn e.relPath excludes = false →
        thresholdMB * MB < e.size →
        (⟨e.relPath, e.size, e.modTime⟩ : LargeFileInfo) ∈
          ListLargeFiles matchFn entries excludes thresholdMB) ∧
    (∀ thresholdMB : Int, thresholdMB < 0 →
      ∀ e ∈ entries, e.isDir = false →
        checkExcluded matchFn e.relPath excludes = false → 0 ≤ e.size →
        (⟨e.relPath, e.size, e.modTime⟩ : LargeFileInfo) ∈
          ListLargeFiles matchFn entries excludes thresholdMB) := by
  have hmem : ∀ thresholdMB : Int, ∀ e ∈ entries, e.isDir = false →
      checkExcluded matchFn e.relPath excludes = false →
      thresholdMB * MB < e.size →
      (⟨e.relPath, e.size, e.modTime⟩ : LargeFileInfo) ∈
        ListLargeFiles matchFn entries excludes thresholdMB := by
    intro thresholdMB e he hdir hexc hsz
    simp only [ListLargeFiles]
    apply (List.perm_insertionSort _ _).mem_iff.mpr
    exact listLargeFiles_fold_mem matchFn excludes _ entries [] e he hdir hexc
      hsz
  refine ⟨?_, fun thresholdMB _ => hmem thresholdMB, ?_⟩
  · intro maxSizeGB hle
    have hGB : (0 : Int) ≤ GB := by decide
    have hm : maxSizeGB * GB ≤ 0 := mul_nonpos_iff.mpr (Or.inr ⟨hle, hGB⟩)
    simp only [CheckFileSizes]
    rw [checkFileSizes_over_nonpos_fold matchFn excludes _ hm]
  · intro thresholdMB hneg e he hdir hexc hsz
    have hMB : (0 : Int) < MB := by decide
    have hthr : thresholdMB * MB < 0 := mul_neg_of_neg_of_pos hneg hMB
    exact hmem thresholdMB e he hdir hexc (by omega)

/-- Witness for C3 on one-file trees: threshold -2 GB for
`CheckFileSizes`, and thresholds 0 MB and -1 MB for `ListLargeFiles`. -/
theorem sizeAnalysis_nonpositive_threshold_witness :
    (CheckFileSizes (fun _ _ => false) [⟨"a".toList, false, 5, 3⟩]
      [] (-2)).filesOverSize = [] ∧
    (⟨"a".toList, 5, 3⟩ : LargeFileInfo) ∈
      ListLargeFiles (fun _ _ => false) [⟨"a".toList, false, 5, 3⟩] [] 0 ∧
    (⟨"a".toList, 5, 3⟩ : LargeFileInfo) ∈
      ListLargeFiles (fun _ _ => false) [⟨"a".toList, false, 5, 3⟩] [] (-1) :=
  ⟨(sizeAnalysis_nonpositive_threshold (fun _ _ => false)
      [⟨"a".toList, false, 5, 3⟩] []).1 (-2) (by decide),
   (sizeAnalysis_nonpositive_threshold (fun _ _ => false)
      [⟨"a".toList, false, 5, 3⟩] []).2.1 0 (by decide)
      ⟨"a".toList, false, 5, 3⟩ (by decide) (by decide) (by decide) (by decide),
   (sizeAnalysis_nonpositive_threshold (fun _ _ => false)
      [⟨"a".toList, false, 5, 3⟩] []).2.2 (-1) (by decide)
      ⟨"a".toList, false, 5, 3⟩ (by decide) (by decide) (by decide) (by decide)⟩
